import Mathlib

set_option maxRecDepth 40000
set_option maxHeartbeats 1000000

/-!
# A shallow embedding of the go-tsz Gorilla time-series codec

This file embeds `src/tsz.go` (package `tsz`): the `Series` encoder, the
`Iter` decoder, and the bit-stream primitives they use, and proves the
specified properties about them.

Modelling conventions:
* A bit stream is a `List Bool`, most significant bit first, mirroring the
  big-endian `BitWriter`/`BitReader` of `dgryski/go-bitstream`.
* `uint32` / `uint64` values are `Nat` with explicit `% 2^32` / `% 2^64`
  at every operation where Go wraps.
* `float64` values are represented by their IEEE-754 bit patterns as `Nat`
  (< 2^64); the Go code only ever manipulates `math.Float64bits v`, so this
  loses nothing and makes equality exactly bit-pattern equality.
* `int32` / `int64` values are `Int`; conversions from unsigned words are
  `toInt32` / `toInt64` (two's-complement reinterpretation).
* A fallible read returns `Option`; the only error in the Go code is the
  reader's `io.EOF`, so the decoder's latched error is modelled as a `Bool`.
-/

/-- `WriteBits(v, n)`: the low `n` bits of `v`, most significant first. -/
def natToBits : Nat → Nat → List Bool
  | _, 0 => []
  | v, n + 1 => natToBits (v / 2) n ++ [decide (v % 2 = 1)]

/-- Reassemble a MSB-first bit list into a `Nat`. -/
def bitsToNat (bs : List Bool) : Nat :=
  bs.foldl (fun a b => 2 * a + (if b then 1 else 0)) 0

/-- `ReadBit`: `none` models the reader's `io.EOF`. -/
def readBit : List Bool → Option (Bool × List Bool)
  | [] => none
  | b :: bs => some (b, bs)

/-- `ReadBits(n)`: read `n` bits MSB-first; `none` models a short read. -/
def readBits (n : Nat) (bs : List Bool) : Option (Nat × List Bool) :=
  if n ≤ bs.length then some (bitsToNat (bs.take n), bs.drop n) else none

/-- `ReadBits` as called with a Go `int` count: a non-positive count reads
nothing and yields 0, as the loops in `go-bitstream` do. -/
def readBitsI (n : Int) (bs : List Bool) : Option (Nat × List Bool) :=
  if n ≤ 0 then some (0, bs) else readBits n.toNat bs

/-- `WriteBits` as called with a Go `int` count: a non-positive count writes
nothing. -/
def writeBitsI (v : Nat) (n : Int) : List Bool :=
  if n ≤ 0 then [] else natToBits v n.toNat

/-- Reinterpret a `uint32`-ranged word as Go `int32`. -/
def toInt32 (u : Nat) : Int := if u < 2 ^ 31 then (u : Int) else (u : Int) - 2 ^ 32

/-- Reinterpret a `uint64`-ranged word as Go `int64`. -/
def toInt64 (u : Nat) : Int := if u < 2 ^ 63 then (u : Int) else (u : Int) - 2 ^ 64

/-- Go conversion `uint64(i)` of a signed value (two's complement). -/
def u64ofInt (i : Int) : Nat := (i % (2 ^ 64 : Int)).toNat

/-- Go conversion `uint32(i)` of a signed value (two's complement). -/
def u32ofInt (i : Int) : Nat := (i % (2 ^ 32 : Int)).toNat

/-- Number of binary digits of `x` (0 for 0), fuel-bounded so that it is
structurally recursive and kernel-evaluable. -/
def bitsLen : Nat → Nat → Nat
  | 0, _ => 0
  | f + 1, x => if x = 0 then 0 else bitsLen f (x / 2) + 1

/-- `bits.Clz` of `dgryski/go-bits` on a 64-bit word: leading zero count,
64 for 0. -/
def clz64 (x : Nat) : Nat := 64 - bitsLen 64 x

/-- Trailing-zero count, fuel-bounded. -/
def ctzAux : Nat → Nat → Nat
  | 0, _ => 0
  | f + 1, x => if x % 2 = 1 then 0 else ctzAux f (x / 2) + 1

/-- `bits.Ctz` of `dgryski/go-bits` on a 64-bit word: trailing zero count,
64 for 0. -/
def ctz64 (x : Nat) : Nat := ctzAux 64 x

/-- The timestamp part of a non-first `Push`: the delta-of-delta switch of
`Series.Push` (src/tsz.go lines 82–97). -/
def dodBits (dod : Int) : List Bool :=
  if dod = 0 then [false]
  else if -63 ≤ dod ∧ dod ≤ 64 then natToBits 2 2 ++ natToBits (u64ofInt dod) 7
  else if -255 ≤ dod ∧ dod ≤ 256 then natToBits 6 3 ++ natToBits (u64ofInt dod) 9
  else if -2047 ≤ dod ∧ dod ≤ 2048 then natToBits 14 4 ++ natToBits (u64ofInt dod) 12
  else natToBits 15 4 ++ natToBits (u64ofInt dod) 32

/-- The value part of a non-first `Push` (src/tsz.go lines 99–123): emitted
bits together with the updated `leading`/`trailing` window.  The encoder's
"no prior window" sentinel is `leading = 2^64 - 1` (`^uint64(0)`).  Note that
in the new-window branch the Go code writes `leading` into 5 bits without
clamping; `natToBits leading 5` keeps only `leading % 32`, exactly as
`WriteBits` does. -/
def xorBits (sLeading sTrailing vDelta : Nat) : List Bool × Nat × Nat :=
  if vDelta = 0 then ([false], sLeading, sTrailing)
  else
    let leading := clz64 vDelta
    let trailing := ctz64 vDelta
    if sLeading ≠ 2 ^ 64 - 1 ∧ sLeading ≤ leading ∧ sTrailing ≤ trailing then
      ([true, false] ++
        writeBitsI (vDelta >>> sTrailing) (64 - (sLeading : Int) - (sTrailing : Int)),
       sLeading, sTrailing)
    else
      let sigbits := 64 - leading - trailing
      ([true, true] ++ natToBits leading 5 ++ natToBits sigbits 6 ++
        natToBits (vDelta >>> trailing) sigbits,
       leading, trailing)

/-- Encoder state of `tsz.Series`.  `bits` holds every bit written so far
(the byte buffer plus the writer's pending partial byte). -/
structure Series where
  t0 : Nat
  tDelta : Nat
  t : Nat
  val : Nat
  leading : Nat
  trailing : Nat
  bits : List Bool
  finished : Bool
deriving DecidableEq

/-- `tsz.New`: fresh encoder; writes the 32-bit block header.  Go zero
values give `t = 0`, `val` with bit pattern 0, `tDelta = 0`. -/
def New (t0 : Nat) : Series :=
  { t0 := t0 % 2 ^ 32, tDelta := 0, t := 0, val := 0,
    leading := 2 ^ 64 - 1, trailing := 0,
    bits := natToBits (t0 % 2 ^ 32) 32, finished := false }

/-- `Series.Bytes`: the byte buffer contents — only the complete bytes
flushed so far, not the writer's pending partial byte. -/
def Series.Bytes (s : Series) : List Bool :=
  s.bits.take (8 * (s.bits.length / 8))

/-- `Series.Finish`: write the end-of-stream record (prefix `1111`, payload
`0xFFFFFFFF`, one `0` value bit) and flush with zero padding; a no-op when
already finished. -/
def Series.Finish (s : Series) : Series :=
  if s.finished then s
  else
    let b := s.bits ++ natToBits 15 4 ++ natToBits (2 ^ 32 - 1) 32 ++ [false]
    { s with bits := b ++ List.replicate ((8 - b.length % 8) % 8) false,
             finished := true }

/-- `Series.Push`.  The first-point test is `s.t == 0`, exactly as in the
source; there is no `finished` guard.  All `uint32` subtraction is modelled
as `(a + 2^32 - b) % 2^32` on in-range operands. -/
def Series.Push (s : Series) (t v : Nat) : Series :=
  let t := t % 2 ^ 32
  let v := v % 2 ^ 64
  if s.t = 0 then
    let tDelta := (t + 2 ^ 32 - s.t0) % 2 ^ 32
    { s with
      t := t, val := v, tDelta := tDelta,
      bits := s.bits ++ natToBits tDelta 14 ++ natToBits v 64 }
  else
    let tDelta := (t + 2 ^ 32 - s.t) % 2 ^ 32
    let dod := toInt32 ((tDelta + 2 ^ 32 - s.tDelta) % 2 ^ 32)
    let xr := xorBits s.leading s.trailing (Nat.xor v s.val)
    { s with
      t := t, val := v, tDelta := tDelta,
      leading := xr.2.1, trailing := xr.2.2,
      bits := s.bits ++ dodBits dod ++ xr.1 }

/-- Decoder state of `tsz.Iter`.  `bits` is the unread remainder of the
input; `err` models the latched error slot (`io.EOF` is the only error the
iterator ever stores). -/
structure Iter where
  t0 : Nat
  tDelta : Nat
  t : Nat
  val : Nat
  leading : Nat
  trailing : Nat
  bits : List Bool
  finished : Bool
  err : Bool
deriving DecidableEq

/-- `tsz.NewIterator`: read the 32-bit header; `none` models the
construction error. -/
def NewIterator (bs : List Bool) : Option Iter :=
  match readBits 32 bs with
  | none => none
  | some (t0, rest) =>
    some { t0 := t0, tDelta := 0, t := 0, val := 0, leading := 0, trailing := 0,
           bits := rest, finished := false, err := false }

/-- The 4-iteration tag loop of `Iter.Next` (src/tsz.go lines 197–209):
`d <<= 1` then read a bit, stop at the first zero bit. -/
def readTag : Nat → Nat → List Bool → Option (Nat × List Bool)
  | 0, d, bs => some (d, bs)
  | f + 1, d, bs =>
    match readBit bs with
    | none => none
    | some (b, rest) => if b then readTag f (2 * d + 1) rest else some (2 * d, rest)

/-- The sign extension of `Iter.Next` (src/tsz.go lines 244–247):
`if bits > 1<<(sz-1) { bits = bits - 1<<sz }` in `uint64` arithmetic. -/
def signExtend (sz u : Nat) : Nat :=
  if 2 ^ (sz - 1) < u then (u + 2 ^ 64 - 2 ^ sz) % 2 ^ 64 else u

/-- Shared tail of the value decode (src/tsz.go lines 292–300):
`mbits := int(64 - it.leading - it.trailing)` in `uint64` arithmetic
reinterpreted as `int`, then read and XOR into the value.  The `2 * 2^64`
cushion makes the truncated `Nat` subtraction agree with `uint64` wraparound
for every `leading`, `trailing < 2^64`. -/
def Iter.valTail (it : Iter) (bs : List Bool) : Bool × Iter :=
  match readBitsI (toInt64 ((64 + 2 * 2 ^ 64 - it.leading - it.trailing) % 2 ^ 64)) bs with
  | none => (false, { it with err := true })
  | some (r, bs2) =>
    (true, { it with bits := bs2,
                     val := Nat.xor it.val ((r <<< it.trailing) % 2 ^ 64) })

/-- Value part of `Iter.Next` (src/tsz.go lines 256–303). -/
def Iter.nextVal (it : Iter) (bs : List Bool) : Bool × Iter :=
  match readBit bs with
  | none => (false, { it with err := true })
  | some (b, bs1) =>
    if b = false then (true, { it with bits := bs1 })
    else
      match readBit bs1 with
      | none => (false, { it with err := true })
      | some (b2, bs2) =>
        if b2 = false then it.valTail bs2
        else
          match readBits 5 bs2 with
          | none => (false, { it with err := true })
          | some (l, bs3) =>
            match readBits 6 bs3 with
            | none => (false, { it with err := true })
            | some (mb, bs4) =>
              Iter.valTail
                { it with leading := l,
                          trailing := (64 + 2 * 2 ^ 64 - l - mb) % 2 ^ 64 } bs4

/-- Timestamp update `it.tDelta += uint32(dod); it.t += it.tDelta`
(src/tsz.go lines 251–254), then the value part. -/
def Iter.stepT (it : Iter) (dod : Int) (bs : List Bool) : Bool × Iter :=
  let tDelta := (it.tDelta + u32ofInt dod) % 2 ^ 32
  Iter.nextVal { it with tDelta := tDelta, t := (it.t + tDelta) % 2 ^ 32 } bs

/-- Read an `sz`-bit delta-of-delta payload and sign-extend it
(src/tsz.go lines 238–249). -/
def Iter.readSz (it : Iter) (sz : Nat) (bs : List Bool) : Bool × Iter :=
  match readBits sz bs with
  | none => (false, { it with err := true })
  | some (u, bs2) => it.stepT (toInt32 (signExtend sz u % 2 ^ 32)) bs2

/-- Non-first branch of `Iter.Next`: tag loop, switch on `d`, end-of-stream
recognition on payload `0xFFFFFFFF` (src/tsz.go lines 196–254). -/
def Iter.nextDod (it : Iter) : Bool × Iter :=
  match readTag 4 0 it.bits with
  | none => (false, { it with err := true })
  | some (d, bs1) =>
    if d = 15 then
      match readBits 32 bs1 with
      | none => (false, { it with err := true })
      | some (u, bs2) =>
        if u = 2 ^ 32 - 1 then (false, { it with finished := true, bits := bs2 })
        else it.stepT (toInt32 u) bs2
    else if d = 2 then it.readSz 7 bs1
    else if d = 6 then it.readSz 9 bs1
    else if d = 14 then it.readSz 12 bs1
    else it.stepT 0 bs1

/-- First-sample branch of `Iter.Next` (src/tsz.go lines 176–194).  As in
the source, `tDelta` and `t` are updated before the 64-bit value read, so a
short value read latches the error with the timestamp already advanced. -/
def Iter.nextFirst (it : Iter) : Bool × Iter :=
  match readBits 14 it.bits with
  | none => (false, { it with err := true })
  | some (td, bs1) =>
    let it1 := { it with tDelta := td, t := (it.t0 + td) % 2 ^ 32, bits := bs1 }
    match readBits 64 bs1 with
    | none => (false, { it1 with err := true })
    | some (v, bs2) => (true, { it1 with val := v, bits := bs2 })

/-- `Iter.Next`: latched error or finished short-circuit, then the
pending-first-sample test `it.t == 0` (src/tsz.go line 176). -/
def Iter.Next (it : Iter) : Bool × Iter :=
  if it.err || it.finished then (false, it)
  else if it.t = 0 then it.nextFirst
  else it.nextDod

/-- `Iter.Values`. -/
def Iter.Values (it : Iter) : Nat × Nat := (it.t, it.val)

/-- `Iter.Err` (the latched error, as a flag: the only error is `io.EOF`). -/
def Iter.Err (it : Iter) : Bool := it.err

/-- Drive the iterator as a client does: call `Next` up to `fuel` times,
collecting `Values` after every successful call. -/
def decodeRun : Nat → Iter → List (Nat × Nat) × Iter
  | 0, it => ([], it)
  | f + 1, it =>
    match it.Next with
    | (false, it2) => ([], it2)
    | (true, it2) =>
      let r := decodeRun f it2
      (it2.Values :: r.1, r.2)

/-- Full decode harness: construct the iterator, run it, and report the
yielded samples, the latched-error flag, and the finished flag. -/
def decodeBlock (bs : List Bool) (fuel : Nat) : List (Nat × Nat) × Bool × Bool :=
  match NewIterator bs with
  | none => ([], true, false)
  | some it =>
    let r := decodeRun fuel it
    (r.1, r.2.err, r.2.finished)

/-- Push a whole list of samples. -/
def pushAll (s : Series) : List (Nat × Nat) → Series
  | [] => s
  | (t, v) :: rest => pushAll (s.Push t v) rest

/-- Encode harness: fresh encoder on anchor `a`, push all of `S`, finish. -/
def encode (a : Nat) (S : List (Nat × Nat)) : Series :=
  (pushAll (New a) S).Finish


/-- Tier membership per the specification table (section 4.2): tier 0 holds
only `dod = 0`; tiers 1–3 are the nested signed ranges; tier 4 holds
everything. -/
def tierContains (k : Nat) (dod : Int) : Bool :=
  match k with
  | 0 => decide (dod = 0)
  | 1 => decide (-63 ≤ dod ∧ dod ≤ 64)
  | 2 => decide (-255 ≤ dod ∧ dod ≤ 256)
  | 3 => decide (-2047 ≤ dod ∧ dod ≤ 2048)
  | _ => true

/-- The control bits written for tier `k`. -/
def tierTagBits : Nat → List Bool
  | 0 => [false]
  | 1 => natToBits 2 2
  | 2 => natToBits 6 3
  | 3 => natToBits 14 4
  | _ => natToBits 15 4

/-- The payload width of tier `k`. -/
def tierWidth : Nat → Nat
  | 0 => 0
  | 1 => 7
  | 2 => 9
  | 3 => 12
  | _ => 32

/-- The tier the encoder's switch selects for `dod`. -/
def tierIdx (dod : Int) : Nat :=
  if dod = 0 then 0
  else if -63 ≤ dod ∧ dod ≤ 64 then 1
  else if -255 ≤ dod ∧ dod ≤ 256 then 2
  else if -2047 ≤ dod ∧ dod ≤ 2048 then 3
  else 4

/-- A value XOR the round-trip theorem can tolerate: zero, or one whose
new-window fields survive the encoder's unclamped 5-bit `leading` and 6-bit
`sigbits` writes (`clz < 32`, and at least one leading or trailing zero so
`sigbits ≤ 63`). -/
def okXorB (x : Nat) : Bool :=
  (x == 0) || (decide (clz64 x < 32) && decide (1 ≤ clz64 x + ctz64 x))

/-- Validity of the samples after the first, threading the previous value's
bit pattern: timestamps are nonzero in-range `uint32`, values are in-range
`uint64`, and every consecutive XOR is tolerable. -/
def validFromB (prev : Nat) : List (Nat × Nat) → Bool
  | [] => true
  | (t, v) :: rest =>
    decide (t ≠ 0) && decide (t < 2 ^ 32) && decide (v < 2 ^ 64) &&
      okXorB (Nat.xor v prev) && validFromB v rest

/-- Validity of a whole pushed sequence against anchor `a`: nonempty, the
first sample's delta from the anchor fits the 14-bit header field, and the
rest is `validFromB`. -/
def validSeqB (a : Nat) : List (Nat × Nat) → Bool
  | [] => false
  | (t1, v1) :: rest =>
    decide (t1 ≠ 0) && decide (t1 < 2 ^ 32) && decide (v1 < 2 ^ 64) &&
      decide ((t1 + 2 ^ 32 - a % 2 ^ 32) % 2 ^ 32 < 2 ^ 14) && validFromB v1 rest


/-- The bits a single `Push` appends in state `s` (first-sample record when
`s.t = 0`, delta-of-delta record otherwise). -/
def pushRecBits (s : Series) (t v : Nat) : List Bool :=
  if s.t = 0 then
    natToBits ((t % 2 ^ 32 + 2 ^ 32 - s.t0) % 2 ^ 32) 14 ++ natToBits (v % 2 ^ 64) 64
  else
    dodBits (toInt32 (((t % 2 ^ 32 + 2 ^ 32 - s.t) % 2 ^ 32 + 2 ^ 32 - s.tDelta) % 2 ^ 32)) ++
      (xorBits s.leading s.trailing (Nat.xor (v % 2 ^ 64) s.val)).1

/-- The bits `pushAll` appends from state `s`. -/
def recsBits (s : Series) : List (Nat × Nat) → List Bool
  | [] => []
  | (t, v) :: rest => pushRecBits s t v ++ recsBits (s.Push t v) rest

/-- Simulation relation between an encoder state and a decoder state:
the decoder mirrors the timestamp, delta, and value state; when the encoder
window is live (not the all-ones sentinel) the decoder holds the same
window, which fits the 5-bit/6-bit fields; no error is latched. -/
structure Sim (s : Series) (it : Iter) : Prop where
  ht0 : it.t0 = s.t0
  htd : it.tDelta = s.tDelta
  ht : it.t = s.t
  hval : it.val = s.val
  hwin : s.leading = 2 ^ 64 - 1 ∨
    (it.leading = s.leading ∧ it.trailing = s.trailing ∧
      s.leading ≤ 31 ∧ s.leading + s.trailing ≤ 63)
  herr : it.err = false
  hfin : it.finished = false
  htlt : s.t < 2 ^ 32
  htdlt : s.tDelta < 2 ^ 32
  hvlt : s.val < 2 ^ 64

-- Sanity checks of the embedding on the spec's concrete scenarios.

example : (New 1000).Finish.bits.length = 72 := by decide

example : decodeBlock (New 1000).Finish.Bytes 2 = ([], true, false) := by decide

-- Scenario: single sample (t0=1000, push (1060, v)); bit-pattern value 7.
example :
    decodeBlock (encode 1000 [(1060, 7)]).Bytes 2 = ([(1060, 7)], false, true) := by
  decide

-- Scenario: constant rate, constant value.
example :
    decodeBlock (encode 0 [(60, 9), (120, 9), (180, 9), (240, 9)]).Bytes 5 =
      ([(60, 9), (120, 9), (180, 9), (240, 9)], false, true) := by
  decide

/-! ## Bit-stream lemmas -/

theorem natToBits_length (v n : Nat) : (natToBits v n).length = n := by
  induction n generalizing v with
  | zero => rfl
  | succ n ih => simp [natToBits, ih]

theorem bitsToNat_acc (bs : List Bool) (a : Nat) :
    bs.foldl (fun a b => 2 * a + (if b then 1 else 0)) a =
      a * 2 ^ bs.length + bitsToNat bs := by
  induction bs generalizing a with
  | nil => simp [bitsToNat]
  | cons b bs ih =>
    simp only [List.foldl_cons, List.length_cons, bitsToNat]
    rw [ih, ih (2 * 0 + if b then 1 else 0)]
    ring

theorem bitsToNat_append (xs ys : List Bool) :
    bitsToNat (xs ++ ys) = bitsToNat xs * 2 ^ ys.length + bitsToNat ys := by
  unfold bitsToNat
  rw [List.foldl_append, bitsToNat_acc]
  rfl

theorem bitsToNat_natToBits (v n : Nat) : bitsToNat (natToBits v n) = v % 2 ^ n := by
  induction n generalizing v with
  | zero => simp [natToBits, bitsToNat, Nat.mod_one]
  | succ n ih =>
    show bitsToNat (natToBits (v / 2) n ++ [decide (v % 2 = 1)]) = _
    rw [bitsToNat_append, ih]
    have hb : bitsToNat [decide (v % 2 = 1)] = v % 2 := by
      rcases Nat.mod_two_eq_zero_or_one v with h | h <;> simp [bitsToNat, h]
    have hm : v % (2 * 2 ^ n) = v % 2 + 2 * (v / 2 % 2 ^ n) := Nat.mod_mul
    simp only [List.length_cons, List.length_nil, hb, pow_succ]
    rw [mul_comm (2 ^ n) 2, hm]
    ring

theorem readBits_append {n : Nat} {xs rest : List Bool} (h : xs.length = n) :
    readBits n (xs ++ rest) = some (bitsToNat xs, rest) := by
  subst h
  unfold readBits
  rw [if_pos (by simp)]
  rw [List.take_left, List.drop_left]

theorem readBits_natToBits (v n : Nat) (rest : List Bool) :
    readBits n (natToBits v n ++ rest) = some (v % 2 ^ n, rest) := by
  rw [readBits_append (natToBits_length v n), bitsToNat_natToBits]

theorem readTag_d0 (r : List Bool) : readTag 4 0 (false :: r) = some (0, r) := rfl

theorem readTag_d2 (r : List Bool) : readTag 4 0 (true :: false :: r) = some (2, r) := rfl

theorem readTag_d6 (r : List Bool) :
    readTag 4 0 (true :: true :: false :: r) = some (6, r) := rfl

theorem readTag_d14 (r : List Bool) :
    readTag 4 0 (true :: true :: true :: false :: r) = some (14, r) := rfl

theorem readTag_d15 (r : List Bool) :
    readTag 4 0 (true :: true :: true :: true :: r) = some (15, r) := rfl

/-! ## Leading/trailing zero count lemmas -/

theorem bitsLen_zero (f : Nat) : bitsLen f 0 = 0 := by cases f <;> rfl

theorem bitsLen_le (f : Nat) : ∀ x, bitsLen f x ≤ f := by
  induction f with
  | zero => intro x; simp [bitsLen]
  | succ f ih =>
    intro x
    unfold bitsLen
    split
    · omega
    · exact Nat.succ_le_succ (ih _)

theorem lt_two_pow_bitsLen (f : Nat) : ∀ x, x < 2 ^ f → x < 2 ^ bitsLen f x := by
  induction f with
  | zero => intro x h; simpa [bitsLen] using h
  | succ f ih =>
    intro x h
    unfold bitsLen
    split
    · simp [*]
    · have h2 : x / 2 < 2 ^ f := by omega
      have := ih (x / 2) h2
      rw [pow_succ]
      omega

theorem two_pow_bitsLen_pred_le (f : Nat) : ∀ x, x ≠ 0 → 2 ^ (bitsLen f x - 1) ≤ x := by
  induction f with
  | zero => intro x h; simp only [bitsLen, Nat.zero_sub, pow_zero]; omega
  | succ f ih =>
    intro x h
    unfold bitsLen
    rw [if_neg h]
    simp only [Nat.add_sub_cancel]
    by_cases h2 : x / 2 = 0
    · rw [h2, bitsLen_zero]
      simp only [Nat.zero_sub, pow_zero]
      exact Nat.pos_of_ne_zero h
    · have hx2 := ih (x / 2) h2
      rcases Nat.eq_zero_or_pos (bitsLen f (x / 2)) with hb | hb
      · rw [hb]
        simpa using Nat.pos_of_ne_zero h
      · have h2b : 2 ^ bitsLen f (x / 2) = 2 * 2 ^ (bitsLen f (x / 2) - 1) := by
          rw [← pow_succ']
          congr 1
          omega
        omega

theorem bitsLen_pos (f x : Nat) (h : x ≠ 0) : 0 < bitsLen (f + 1) x := by
  unfold bitsLen; rw [if_neg h]; omega

theorem clz64_le (x : Nat) (h : x ≠ 0) : clz64 x ≤ 63 := by
  have h4 : 0 < bitsLen 64 x := bitsLen_pos 63 x h
  unfold clz64
  omega

theorem lt_two_pow_of_clz64 (x : Nat) (h : x < 2 ^ 64) : x < 2 ^ (64 - clz64 x) := by
  have h1 := lt_two_pow_bitsLen 64 x h
  have h2 := bitsLen_le 64 x
  unfold clz64
  have : 64 - (64 - bitsLen 64 x) = bitsLen 64 x := by omega
  rw [this]
  exact h1

theorem two_pow_le_of_clz64 (x : Nat) (h : x ≠ 0) : 2 ^ (63 - clz64 x) ≤ x := by
  have h1 := two_pow_bitsLen_pred_le 64 x h
  have h2 := bitsLen_le 64 x
  have h3 : 0 < bitsLen 64 x := bitsLen_pos 63 x h
  unfold clz64
  have : 63 - (64 - bitsLen 64 x) = bitsLen 64 x - 1 := by omega
  rw [this]
  exact h1

theorem ctzAux_dvd (f : Nat) : ∀ x, 2 ^ ctzAux f x ∣ x := by
  induction f with
  | zero => intro x; simp [ctzAux]
  | succ f ih =>
    intro x
    unfold ctzAux
    split
    · simp
    · have h2 : x % 2 = 0 := by omega
      obtain ⟨c, hc⟩ := ih (x / 2)
      rw [pow_succ]
      refine ⟨c, ?_⟩
      calc x = 2 * (x / 2) := by omega
        _ = 2 * (2 ^ ctzAux f (x / 2) * c) := congrArg (fun y => 2 * y) hc
        _ = 2 ^ ctzAux f (x / 2) * 2 * c := by ring

theorem ctz64_dvd (x : Nat) : 2 ^ ctz64 x ∣ x := ctzAux_dvd 64 x

theorem clz64_add_ctz64_le (x : Nat) (h : x ≠ 0) (h64 : x < 2 ^ 64) :
    clz64 x + ctz64 x ≤ 63 := by
  have hd := ctz64_dvd x
  have hle : 2 ^ ctz64 x ≤ x := Nat.le_of_dvd (Nat.pos_of_ne_zero h) hd
  have hlt : x < 2 ^ (64 - clz64 x) := lt_two_pow_of_clz64 x h64
  have : 2 ^ ctz64 x < 2 ^ (64 - clz64 x) := lt_of_le_of_lt hle hlt
  have hc := clz64_le x h
  have := (Nat.pow_lt_pow_iff_right (by omega : 1 < 2)).mp this
  omega


/-! ## Simple structural lemmas about the encoder -/

theorem Push_first (s : Series) (t v : Nat) (h : s.t = 0) :
    s.Push t v =
      { s with
        t := t % 2 ^ 32, val := v % 2 ^ 64,
        tDelta := (t % 2 ^ 32 + 2 ^ 32 - s.t0) % 2 ^ 32,
        bits := s.bits ++ natToBits ((t % 2 ^ 32 + 2 ^ 32 - s.t0) % 2 ^ 32) 14 ++
          natToBits (v % 2 ^ 64) 64 } := by
  simp [Series.Push, h]

theorem Push_not_first (s : Series) (t v : Nat) (h : ¬ s.t = 0) :
    s.Push t v =
      { s with
        t := t % 2 ^ 32, val := v % 2 ^ 64,
        tDelta := (t % 2 ^ 32 + 2 ^ 32 - s.t) % 2 ^ 32,
        leading := (xorBits s.leading s.trailing (Nat.xor (v % 2 ^ 64) s.val)).2.1,
        trailing := (xorBits s.leading s.trailing (Nat.xor (v % 2 ^ 64) s.val)).2.2,
        bits := s.bits ++
          dodBits (toInt32 (((t % 2 ^ 32 + 2 ^ 32 - s.t) % 2 ^ 32 + 2 ^ 32 - s.tDelta) % 2 ^ 32)) ++
          (xorBits s.leading s.trailing (Nat.xor (v % 2 ^ 64) s.val)).1 } := by
  simp [Series.Push, h]

theorem dodBits_length_pos (d : Int) : 0 < (dodBits d).length := by
  unfold dodBits
  repeat' split
  all_goals
    simp only [List.length_append, natToBits_length, List.length_cons, List.length_nil]
  all_goals omega

theorem xorBits_fst_length_pos (sL sT x : Nat) : 0 < (xorBits sL sT x).1.length := by
  unfold xorBits
  split
  · simp
  · dsimp only
    split <;> simp

theorem Push_bits_length_lt (s : Series) (t v : Nat) :
    s.bits.length < (s.Push t v).bits.length := by
  by_cases h : s.t = 0
  · rw [Push_first s t v h]
    simp [natToBits_length]
  · rw [Push_not_first s t v h]
    have h1 := dodBits_length_pos
      (toInt32 (((t % 2 ^ 32 + 2 ^ 32 - s.t) % 2 ^ 32 + 2 ^ 32 - s.tDelta) % 2 ^ 32))
    have h2 := xorBits_fst_length_pos s.leading s.trailing (Nat.xor (v % 2 ^ 64) s.val)
    simp only [List.length_append]
    omega

theorem Finish_of_finished (s : Series) (h : s.finished = true) : s.Finish = s := by
  unfold Series.Finish
  rw [if_pos h]

/-! ## Claim theorems: concrete behaviours -/

/-- C6. Idempotent finish: for every encoder state, calling `Finish` twice
produces exactly the same encoder state — and hence the same byte
sequence — as calling it once. -/
theorem finish_idempotent (s : Series) : s.Finish.Finish = s.Finish := by
  by_cases h : s.finished
  · rw [Finish_of_finished s h, Finish_of_finished s h]
  · apply Finish_of_finished
    unfold Series.Finish
    rw [if_neg h]

/-- C2 counterexample: decoding the bytes of a finished empty block does
latch an error — `Err` is not clean — because the decoder starts in the
pending-first-sample state and runs off the end of the input while parsing
the end-of-stream marker as a first sample.  This refutes the claim's
"no latched error" part at `t0 = 1000`. -/
theorem empty_block_no_error_counterexample :
    ¬ (decodeBlock (New 1000).Finish.Bytes 2).2.1 = false := by decide

/-- C2, amended: decoding a finished empty block (`t0 = 1000`) yields zero
samples, but with a latched end-of-input error rather than a clean
termination: the decoder consumes the end-of-stream marker's first 14 bits
as a first-sample time delta and then fails reading the 64-bit value. -/
theorem empty_block_decode :
    decodeBlock (New 1000).Finish.Bytes 2 = ([], true, false) := by decide

/-- C3 counterexample: a finished encoder is not immutable — pushing after
`Finish` changes the encoder state (it appends a first-sample record to the
buffer). -/
theorem finished_immutable_counterexample :
    (New 0).Finish.Push 1 0 ≠ (New 0).Finish := by decide

/-- C3, amended: after `Finish`, further `Finish` calls leave the encoder
(and hence `Bytes`) unchanged, but `Push` is not guarded and always grows
the bit buffer, mutating the encoder. -/
theorem finished_series_mutability (s : Series) (t v : Nat) (h : s.finished = true) :
    s.Finish = s ∧ s.bits.length < (s.Push t v).bits.length :=
  ⟨Finish_of_finished s h, Push_bits_length_lt s t v⟩

/-- Witness for `finished_series_mutability` at the finished empty encoder. -/
theorem finished_series_mutability_witness :
    (New 0).Finish.finished = true ∧
      ((New 0).Finish.Finish = (New 0).Finish ∧
        (New 0).Finish.bits.length < ((New 0).Finish.Push 1 0).bits.length) :=
  ⟨by decide, finished_series_mutability (New 0).Finish 1 0 (by decide)⟩

/-- C4. The claim is right and the code wrong: the encoder does not clamp
`leading ≥ 32` before the 5-bit write.  At the failing input
(`t0 = 100`, samples `(101, bits 0)` and `(102, bits 1)`) the XOR is 1 with
63 leading zeros; `WriteBits(63, 5)` silently stores 31 (the same field a
clamped encoder would use, but with `sigbits` computed from 63), and the
decoder reconstructs the second value as bit pattern `2^32` instead of
`1` — the encoding is not invertible, as the spec warns. -/
theorem leading_clamp_missing :
    clz64 1 = 63 ∧ natToBits 63 5 = natToBits 31 5 ∧
      decodeBlock (encode 100 [(101, 0), (102, 1)]).Bytes 3 =
        ([(101, 0), (102, 2 ^ 32)], false, true) := by decide

/-- C5 counterexample: after a first push at timestamp 0 on a fresh encoder,
the second push is not encoded as a delta-of-delta record (which for this
input would be `dodBits 60` plus one zero value bit). -/
theorem sentinel_distinguished_counterexample :
    (((New 0).Push 0 0).Push 60 0).bits ≠
      ((New 0).Push 0 0).bits ++ dodBits 60 ++ [false] := by decide

/-- C5, amended: the encoder's "no samples yet" sentinel is `t == 0` itself,
so it is not distinguished from a pushed timestamp equal to 0: a first push
at timestamp 0 leaves `s.t = 0`, and the second push is again encoded as a
first-sample record (14-bit delta plus raw 64-bit value). -/
theorem sentinel_zero_timestamp (a v t2 v2 : Nat) :
    ((New a).Push 0 v).t = 0 ∧
      (((New a).Push 0 v).Push t2 v2).bits =
        ((New a).Push 0 v).bits ++
          natToBits ((t2 % 2 ^ 32 + 2 ^ 32 - a % 2 ^ 32) % 2 ^ 32) 14 ++
          natToBits (v2 % 2 ^ 64) 64 := by
  have ht : ((New a).Push 0 v).t = 0 := by simp [Series.Push, New]
  have ht0 : ((New a).Push 0 v).t0 = a % 2 ^ 32 := by simp [Series.Push, New]
  refine ⟨ht, ?_⟩
  rw [Push_first _ t2 v2 ht]
  simp [ht0]

/-- C8. Asymmetric signed payload round trip: the decoder sign-extends an
`sz`-bit payload only when it is strictly greater than `2^(sz-1)`;
`dod = 64` goes out in the 7-bit tier as `1000000` and decodes back to
`+64`, while `dod = -64` falls to the 9-bit tier (payload 448) and decodes
back to `-64`. -/
theorem signed_payload_asymmetry :
    dodBits 64 = [true, false] ++ natToBits 64 7 ∧
      natToBits (u64ofInt 64) 7 = [true, false, false, false, false, false, false] ∧
      toInt32 (signExtend 7 64 % 2 ^ 32) = 64 ∧
      dodBits (-64) = [true, true, false] ++ natToBits (u64ofInt (-64)) 9 ∧
      bitsToNat (natToBits (u64ofInt (-64)) 9) = 448 ∧
      toInt32 (signExtend 9 448 % 2 ^ 32) = -64 ∧
      signExtend 7 64 = 64 ∧
      signExtend 7 65 = 2 ^ 64 - 63 := by decide

/-- C9. Sticky error: once the decoder's error slot is set, `Next` returns
`false` without touching the iterator (no input consumed, no sample state
changed), and `Err` still reports the latched error afterwards. -/
theorem sticky_error (it : Iter) (h : it.err = true) :
    it.Next = (false, it) ∧ (it.Next.2).Err = true := by
  constructor
  · unfold Iter.Next
    rw [h]
    simp
  · unfold Iter.Next
    rw [h]
    simpa [Iter.Err] using h

/-- Witness for `sticky_error` at a concrete errored iterator. -/
theorem sticky_error_witness :
    (⟨0, 0, 0, 0, 0, 0, [true], false, true⟩ : Iter).err = true ∧
      ((⟨0, 0, 0, 0, 0, 0, [true], false, true⟩ : Iter).Next =
          (false, (⟨0, 0, 0, 0, 0, 0, [true], false, true⟩ : Iter)) ∧
        ((⟨0, 0, 0, 0, 0, 0, [true], false, true⟩ : Iter).Next.2).Err = true) :=
  ⟨by decide, sticky_error _ (by decide)⟩

/-- C10. Decoder timestamp-zero reset: with anchor `t0 = 2^32 - 1` and pushed
samples `(16384, v)` and `(16444, v)`, the encoded stream reconstructs the
first sample's timestamp as `t0 + 1 = 0 (mod 2^32)`.  The first `Next` call
therefore yields `(0, v)` (`it.t` wraps to 0), and the second `Next` call
re-enters the first-sample branch, consuming the following delta-of-delta
record's bits as a 14-bit delta plus a raw 64-bit value — which runs off the
end of the stream and latches an error instead of yielding the second pushed
sample `(16444, v)`: decoding is desynchronized from the encoder. -/
theorem decoder_zero_reset :
    decodeBlock (encode 4294967295 [(16384, 0), (16444, 0)]).Bytes 1 =
        ([(0, 0)], false, false) ∧
      decodeBlock (encode 4294967295 [(16384, 0), (16444, 0)]).Bytes 3 =
        ([(0, 0)], true, false) := by decide

/-- C1 counterexample: the sequence `S = [(1, bits 0), (2, bits 1)]` (anchor
1) satisfies the claim's stated preconditions — the first delta is below
`2^14` and there are no second differences to constrain — yet decoding the
encoding does not yield `S`: the unclamped leading-zero write corrupts the
second value. -/
theorem roundtrip_claim_counterexample :
    (decodeBlock (encode 1 [(1, 0), (2, 1)]).Bytes 3).1 ≠ [(1, 0), (2, 1)] := by decide

/-- C7. Tier selection: every non-first push emits its delta-of-delta via
`dodBits`, and `dodBits` encodes any `dod` with the tag and payload width of
the tier `tierIdx dod`, which contains `dod` while every smaller tier does
not — the smallest container always wins. -/
theorem dod_tier_selection (s : Series) (t v : Nat) (h : ¬ s.t = 0) :
    (s.Push t v).bits =
        s.bits ++
          dodBits (toInt32 (((t % 2 ^ 32 + 2 ^ 32 - s.t) % 2 ^ 32 + 2 ^ 32 - s.tDelta) % 2 ^ 32)) ++
          (xorBits s.leading s.trailing (Nat.xor (v % 2 ^ 64) s.val)).1 ∧
      ∀ dod : Int,
        dodBits dod =
            tierTagBits (tierIdx dod) ++ natToBits (u64ofInt dod) (tierWidth (tierIdx dod)) ∧
          tierContains (tierIdx dod) dod = true ∧
          ∀ j, j < tierIdx dod → tierContains j dod = false := by
  refine ⟨?_, ?_⟩
  · rw [Push_not_first s t v h]
  · intro dod
    unfold dodBits tierIdx
    split_ifs with h0 h1 h2 h3
    · refine ⟨?_, ?_, ?_⟩
      · simp [tierTagBits, tierWidth, natToBits, h0]
      · simp [tierContains, h0]
      · intro j hj; omega
    · refine ⟨rfl, ?_, ?_⟩
      · simp [tierContains, h1]
      · intro j hj
        interval_cases j
        all_goals simp [tierContains]
        all_goals omega
    · refine ⟨rfl, ?_, ?_⟩
      · simp [tierContains, h2]
      · intro j hj
        interval_cases j
        all_goals simp [tierContains]
        all_goals omega
    · refine ⟨rfl, ?_, ?_⟩
      · simp [tierContains, h3]
      · intro j hj
        interval_cases j
        all_goals simp [tierContains]
        all_goals omega
    · refine ⟨rfl, rfl, ?_⟩
      · intro j hj
        interval_cases j
        all_goals simp [tierContains]
        all_goals omega

/-- Witness for `dod_tier_selection` at a concrete two-push encoder. -/
theorem dod_tier_selection_witness :
    ¬ ((New 1).Push 5 0).t = 0 ∧
      ((((New 1).Push 5 0).Push 100 0).bits =
          ((New 1).Push 5 0).bits ++
            dodBits (toInt32 (((100 % 2 ^ 32 + 2 ^ 32 - ((New 1).Push 5 0).t) % 2 ^ 32 + 2 ^ 32 -
              ((New 1).Push 5 0).tDelta) % 2 ^ 32)) ++
            (xorBits ((New 1).Push 5 0).leading ((New 1).Push 5 0).trailing
              (Nat.xor (0 % 2 ^ 64) ((New 1).Push 5 0).val)).1 ∧
        ∀ dod : Int,
          dodBits dod =
              tierTagBits (tierIdx dod) ++ natToBits (u64ofInt dod) (tierWidth (tierIdx dod)) ∧
            tierContains (tierIdx dod) dod = true ∧
            ∀ j, j < tierIdx dod → tierContains j dod = false) :=
  ⟨by decide, dod_tier_selection ((New 1).Push 5 0) 100 0 (by decide)⟩

/-! ## Arithmetic lemmas for the round trip -/

theorem shiftRight_lt_pow (x a b : Nat) (h : x < 2 ^ (b + a)) : x >>> a < 2 ^ b := by
  rw [Nat.shiftRight_eq_div_pow]
  rw [Nat.div_lt_iff_lt_mul (Nat.pos_pow_of_pos a (by omega))]
  rw [pow_add] at h
  exact h

theorem shiftRight_shiftLeft_cancel (x a : Nat) (h : 2 ^ a ∣ x) : (x >>> a) <<< a = x := by
  rw [Nat.shiftRight_eq_div_pow, Nat.shiftLeft_eq]
  exact Nat.div_mul_cancel h

theorem u64ofInt_toInt32 (u : Nat) (hu : u < 2 ^ 32) :
    u64ofInt (toInt32 u) = if u < 2 ^ 31 then u else u + (2 ^ 64 - 2 ^ 32) := by
  unfold u64ofInt toInt32
  split_ifs
  all_goals omega

theorem u32ofInt_toInt32 (u : Nat) (hu : u < 2 ^ 32) : u32ofInt (toInt32 u) = u := by
  unfold u32ofInt toInt32
  split_ifs
  all_goals omega

/-! ## Decoder equation lemmas -/

theorem nextVal_zero_bit (it : Iter) (bs : List Bool) :
    it.nextVal (false :: bs) = (true, { it with bits := bs }) := rfl

theorem nextVal_reuse_bits (it : Iter) (bs : List Bool) :
    it.nextVal (true :: false :: bs) = it.valTail bs := rfl

theorem nextVal_newwin_bits (it : Iter) (bs : List Bool) :
    it.nextVal (true :: true :: bs) =
      (match readBits 5 bs with
      | none => (false, { it with err := true })
      | some (l, bs3) =>
        match readBits 6 bs3 with
        | none => (false, { it with err := true })
        | some (mb, bs4) =>
          Iter.valTail
            { it with leading := l, trailing := (64 + 2 * 2 ^ 64 - l - mb) % 2 ^ 64 }
            bs4) := rfl

/-! ## Value record round trip -/

theorem valTail_spec (it : Iter) (x : Nat) (rest : List Bool)
    (hLT : it.leading + it.trailing ≤ 63)
    (hx : x < 2 ^ (64 - it.leading))
    (hdvd : 2 ^ it.trailing ∣ x)
    (hxlt : x < 2 ^ 64) :
    it.valTail (natToBits (x >>> it.trailing) (64 - it.leading - it.trailing) ++ rest) =
      (true, { it with bits := rest, val := Nat.xor it.val x }) := by
  unfold Iter.valTail
  have hmb : (64 + 2 * 2 ^ 64 - it.leading - it.trailing) % 2 ^ 64 =
      64 - it.leading - it.trailing := by omega
  rw [hmb]
  have hti : toInt64 (64 - it.leading - it.trailing) =
      ((64 - it.leading - it.trailing : Nat) : Int) := by
    unfold toInt64
    rw [if_pos (by omega)]
  rw [hti]
  have hlt2 : x >>> it.trailing < 2 ^ (64 - it.leading - it.trailing) := by
    apply shiftRight_lt_pow
    have h64 : 64 - it.leading - it.trailing + it.trailing = 64 - it.leading := by omega
    rw [h64]
    exact hx
  have hrb : readBitsI ((64 - it.leading - it.trailing : Nat) : Int)
      (natToBits (x >>> it.trailing) (64 - it.leading - it.trailing) ++ rest) =
      some (x >>> it.trailing, rest) := by
    unfold readBitsI
    rw [if_neg (by omega)]
    rw [Int.toNat_natCast]
    rw [readBits_natToBits]
    rw [Nat.mod_eq_of_lt hlt2]
  rw [hrb]
  have hshift : (x >>> it.trailing) <<< it.trailing % 2 ^ 64 = x := by
    rw [shiftRight_shiftLeft_cancel x it.trailing hdvd]
    exact Nat.mod_eq_of_lt hxlt
  show (true, { it with
    bits := rest,
    val := Nat.xor it.val ((x >>> it.trailing) <<< it.trailing % 2 ^ 64) }) = _
  rw [hshift]

theorem nextVal_spec (it : Iter) (sL sT x : Nat) (rest : List Bool)
    (hwin : sL = 2 ^ 64 - 1 ∨
      (it.leading = sL ∧ it.trailing = sT ∧ sL ≤ 31 ∧ sL + sT ≤ 63))
    (hok : x = 0 ∨ (clz64 x < 32 ∧ 1 ≤ clz64 x + ctz64 x))
    (hxlt : x < 2 ^ 64) :
    ∃ it3 : Iter, it.nextVal ((xorBits sL sT x).1 ++ rest) = (true, it3) ∧
      it3.bits = rest ∧ it3.val = Nat.xor it.val x ∧
      it3.t0 = it.t0 ∧ it3.t = it.t ∧ it3.tDelta = it.tDelta ∧
      it3.err = it.err ∧ it3.finished = it.finished ∧
      ((xorBits sL sT x).2.1 = 2 ^ 64 - 1 ∨
        (it3.leading = (xorBits sL sT x).2.1 ∧ it3.trailing = (xorBits sL sT x).2.2 ∧
          (xorBits sL sT x).2.1 ≤ 31 ∧
          (xorBits sL sT x).2.1 + (xorBits sL sT x).2.2 ≤ 63)) := by
  by_cases hx0 : x = 0
  · subst hx0
    have hxb : xorBits sL sT 0 = ([false], sL, sT) := by simp [xorBits]
    rw [hxb]
    refine ⟨{ it with bits := rest }, ?_, rfl, (Nat.xor_zero it.val).symm,
      rfl, rfl, rfl, rfl, rfl, ?_⟩
    · exact nextVal_zero_bit it rest
    · rcases hwin with h | ⟨h1, h2, h3, h4⟩
      · exact Or.inl h
      · exact Or.inr ⟨h1, h2, h3, h4⟩
  · have hclz_le : clz64 x ≤ 63 := clz64_le x hx0
    have hlt : x < 2 ^ (64 - clz64 x) := lt_two_pow_of_clz64 x hxlt
    have hsum : clz64 x + ctz64 x ≤ 63 := clz64_add_ctz64_le x hx0 hxlt
    by_cases hre : sL ≠ 2 ^ 64 - 1 ∧ sL ≤ clz64 x ∧ sT ≤ ctz64 x
    · -- window reuse
      rcases hwin with h | ⟨hL, hT, hsL31, hsLT⟩
      · exact absurd h hre.1
      have hxb : xorBits sL sT x =
          ([true, false] ++ writeBitsI (x >>> sT) (64 - (sL : Int) - (sT : Int)),
            sL, sT) := by
        unfold xorBits
        rw [if_neg hx0]
        dsimp only
        rw [if_pos hre]
      rw [hxb]
      have hw : writeBitsI (x >>> sT) (64 - (sL : Int) - (sT : Int)) =
          natToBits (x >>> sT) (64 - sL - sT) := by
        unfold writeBitsI
        rw [if_neg (by omega)]
        congr 1
        omega
      have hvt := valTail_spec it x rest (by omega)
        (by
          rw [hL]
          calc x < 2 ^ (64 - clz64 x) := hlt
            _ ≤ 2 ^ (64 - sL) := Nat.pow_le_pow_right (by omega) (by omega))
        (by
          rw [hT]
          exact dvd_trans (pow_dvd_pow 2 hre.2.2) (ctz64_dvd x))
        hxlt
      refine ⟨{ it with bits := rest, val := Nat.xor it.val x }, ?_, rfl, rfl,
        rfl, rfl, rfl, rfl, rfl, ?_⟩
      · rw [hw, ← hL, ← hT]
        simp only [List.append_assoc, List.cons_append, List.nil_append]
        rw [nextVal_reuse_bits]
        exact hvt
      · exact Or.inr ⟨hL, hT, hsL31, hsLT⟩
    · -- new window
      rcases hok with h | ⟨h31, hsig1⟩
      · exact absurd h hx0
      have hxb : xorBits sL sT x =
          ([true, true] ++ natToBits (clz64 x) 5 ++
            natToBits (64 - clz64 x - ctz64 x) 6 ++
            natToBits (x >>> ctz64 x) (64 - clz64 x - ctz64 x), clz64 x, ctz64 x) := by
        unfold xorBits
        rw [if_neg hx0]
        dsimp only
        rw [if_neg hre]
      rw [hxb]
      refine ⟨{ it with
          leading := clz64 x, trailing := ctz64 x, bits := rest,
          val := Nat.xor it.val x }, ?_, rfl, rfl,
        rfl, rfl, rfl, rfl, rfl,
        Or.inr ⟨rfl, rfl, (show clz64 x ≤ 31 by omega), hsum⟩⟩
      simp only [List.append_assoc, List.cons_append, List.nil_append]
      rw [nextVal_newwin_bits]
      rw [readBits_natToBits]
      rw [Nat.mod_eq_of_lt (show clz64 x < 2 ^ 5 by omega)]
      dsimp only
      rw [readBits_natToBits]
      rw [Nat.mod_eq_of_lt (show 64 - clz64 x - ctz64 x < 2 ^ 6 by omega)]
      dsimp only
      have htr : (64 + 2 * 2 ^ 64 - clz64 x - (64 - clz64 x - ctz64 x)) % 2 ^ 64 =
          ctz64 x := by omega
      rw [htr]
      have hvt := valTail_spec
        { it with leading := clz64 x, trailing := ctz64 x } x rest
        (by simpa using hsum)
        (by simpa using hlt)
        (by simpa using ctz64_dvd x)
        hxlt
      exact hvt

/-! ## Delta-of-delta record lemmas -/

theorem natToBits_two : natToBits 2 2 = [true, false] := by decide

theorem natToBits_six : natToBits 6 3 = [true, true, false] := by decide

theorem natToBits_fourteen : natToBits 14 4 = [true, true, true, false] := by decide

theorem natToBits_fifteen : natToBits 15 4 = [true, true, true, true] := by decide

theorem nextDod_tag0 (it : Iter) (bs : List Bool) (hb : it.bits = false :: bs) :
    it.nextDod = it.stepT 0 bs := by
  unfold Iter.nextDod
  rw [hb, readTag_d0]
  rfl

theorem nextDod_tag2 (it : Iter) (bs : List Bool) (hb : it.bits = true :: false :: bs) :
    it.nextDod = it.readSz 7 bs := by
  unfold Iter.nextDod
  rw [hb, readTag_d2]
  rfl

theorem nextDod_tag6 (it : Iter) (bs : List Bool)
    (hb : it.bits = true :: true :: false :: bs) :
    it.nextDod = it.readSz 9 bs := by
  unfold Iter.nextDod
  rw [hb, readTag_d6]
  rfl

theorem nextDod_tag14 (it : Iter) (bs : List Bool)
    (hb : it.bits = true :: true :: true :: false :: bs) :
    it.nextDod = it.readSz 12 bs := by
  unfold Iter.nextDod
  rw [hb, readTag_d14]
  rfl

theorem nextDod_tag15 (it : Iter) (bs : List Bool)
    (hb : it.bits = true :: true :: true :: true :: bs) :
    it.nextDod =
      (match readBits 32 bs with
      | none => (false, { it with err := true })
      | some (u, bs2) =>
        if u = 2 ^ 32 - 1 then (false, { it with finished := true, bits := bs2 })
        else it.stepT (toInt32 u) bs2) := by
  unfold Iter.nextDod
  rw [hb, readTag_d15]
  rfl

theorem stepT_eq (it : Iter) (dod : Int) (bs : List Bool) :
    it.stepT dod bs =
      Iter.nextVal
        { it with
          tDelta := (it.tDelta + u32ofInt dod) % 2 ^ 32,
          t := (it.t + (it.tDelta + u32ofInt dod) % 2 ^ 32) % 2 ^ 32 } bs := rfl

/-! ## Per-tier payload arithmetic -/

theorem toInt32_eq_zero (u : Nat) (hu : u < 2 ^ 32) (h : toInt32 u = 0) : u = 0 := by
  unfold toInt32 at h
  split_ifs at h
  all_goals omega

theorem payload_roundtrip_7 (u : Nat) (hu : u < 2 ^ 32)
    (hlo : -63 ≤ toInt32 u) (hhi : toInt32 u ≤ 64) :
    u32ofInt (toInt32 (signExtend 7 (u64ofInt (toInt32 u) % 2 ^ 7) % 2 ^ 32)) = u := by
  unfold u64ofInt u32ofInt toInt32 signExtend at *
  split_ifs at *
  all_goals omega

theorem payload_roundtrip_9 (u : Nat) (hu : u < 2 ^ 32)
    (hlo : -255 ≤ toInt32 u) (hhi : toInt32 u ≤ 256) :
    u32ofInt (toInt32 (signExtend 9 (u64ofInt (toInt32 u) % 2 ^ 9) % 2 ^ 32)) = u := by
  unfold u64ofInt u32ofInt toInt32 signExtend at *
  split_ifs at *
  all_goals omega

theorem payload_roundtrip_12 (u : Nat) (hu : u < 2 ^ 32)
    (hlo : -2047 ≤ toInt32 u) (hhi : toInt32 u ≤ 2048) :
    u32ofInt (toInt32 (signExtend 12 (u64ofInt (toInt32 u) % 2 ^ 12) % 2 ^ 32)) = u := by
  unfold u64ofInt u32ofInt toInt32 signExtend at *
  split_ifs at *
  all_goals omega

theorem payload_roundtrip_32 (u : Nat) (hu : u < 2 ^ 32)
    (h : ¬(-2047 ≤ toInt32 u ∧ toInt32 u ≤ 2048)) :
    u64ofInt (toInt32 u) % 2 ^ 32 = u ∧ ¬ u = 2 ^ 32 - 1 ∧ u32ofInt (toInt32 u) = u := by
  unfold u64ofInt u32ofInt toInt32 at *
  split_ifs at *
  all_goals refine ⟨by omega, by omega, by omega⟩

theorem Next_record (s : Series) (it : Iter) (t v : Nat) (rest : List Bool)
    (sim : Sim s it) (hst : ¬ s.t = 0)
    (ht32 : t < 2 ^ 32) (hv : v < 2 ^ 64)
    (hok : Nat.xor v s.val = 0 ∨
      (clz64 (Nat.xor v s.val) < 32 ∧
        1 ≤ clz64 (Nat.xor v s.val) + ctz64 (Nat.xor v s.val)))
    (hbits : it.bits =
      dodBits (toInt32 (((t + 2 ^ 32 - s.t) % 2 ^ 32 + 2 ^ 32 - s.tDelta) % 2 ^ 32)) ++
        ((xorBits s.leading s.trailing (Nat.xor v s.val)).1 ++ rest)) :
    ∃ it2 : Iter, it.Next = (true, it2) ∧ it2.bits = rest ∧
      it2.t = t ∧ it2.val = v ∧ Sim (s.Push t v) it2 := by
  set x := Nat.xor v s.val with hxdef
  set D := (t + 2 ^ 32 - s.t) % 2 ^ 32 with hDdef
  set U := (D + 2 ^ 32 - s.tDelta) % 2 ^ 32 with hUdef
  have hD32 : D < 2 ^ 32 := by omega
  have hU32 : U < 2 ^ 32 := by omega
  have hxlt : x < 2 ^ 64 := Nat.xor_lt_two_pow hv sim.hvlt
  have hPush := Push_not_first s t v hst
  rw [Nat.mod_eq_of_lt ht32, Nat.mod_eq_of_lt hv] at hPush
  have hnext : it.Next = it.nextDod := by
    unfold Iter.Next
    rw [sim.herr, sim.hfin, sim.ht]
    simp [hst]
  have htwo : (it.t + D) % 2 ^ 32 = t := by
    rw [sim.ht]
    have h1 := sim.htlt
    omega
  have hxr : Nat.xor s.val x = v := by
    rw [hxdef]
    show s.val ^^^ (v ^^^ s.val) = v
    rw [Nat.xor_comm v s.val, Nat.xor_cancel_left]
  suffices hNfull : it.Next =
      Iter.nextVal { it with tDelta := D, t := t }
        ((xorBits s.leading s.trailing x).1 ++ rest) by
    obtain ⟨it3, hrun, hb3, hv3, h30, h3t, h3td, h3e, h3f, h3w⟩ :=
      nextVal_spec { it with tDelta := D, t := t } s.leading s.trailing x rest
        sim.hwin hok hxlt
    refine ⟨it3, by rw [hNfull]; exact hrun, hb3, h3t, ?_, ?_⟩
    · rw [hv3]
      show Nat.xor it.val x = v
      rw [sim.hval]
      exact hxr
    · refine
        { ht0 := ?_, htd := ?_, ht := ?_, hval := ?_, hwin := ?_,
          herr := ?_, hfin := ?_, htlt := ?_, htdlt := ?_, hvlt := ?_ }
      · rw [hPush]
        exact h30.trans sim.ht0
      · rw [hPush]
        exact h3td
      · rw [hPush]
        exact h3t
      · rw [hPush, hv3]
        show Nat.xor it.val x = v
        rw [sim.hval]
        exact hxr
      · rw [hPush]
        exact h3w
      · exact h3e.trans sim.herr
      · exact h3f.trans sim.hfin
      · rw [hPush]
        exact ht32
      · rw [hPush]
        exact hD32
      · rw [hPush]
        exact hv
  by_cases h0 : toInt32 U = 0
  · have hU0 : U = 0 := toInt32_eq_zero U hU32 h0
    have hdb : dodBits (toInt32 U) = [false] := by
      rw [h0]
      rfl
    rw [hdb] at hbits
    have hb2 : it.bits = false :: ((xorBits s.leading s.trailing x).1 ++ rest) := by
      simpa using hbits
    rw [hnext, nextDod_tag0 it _ hb2, stepT_eq]
    have hone : (it.tDelta + u32ofInt 0) % 2 ^ 32 = D := by
      rw [sim.htd]
      have hz : u32ofInt 0 = 0 := rfl
      rw [hz]
      have h1 := sim.htdlt
      omega
    rw [hone, htwo]
  · by_cases h1 : -63 ≤ toInt32 U ∧ toInt32 U ≤ 64
    · have hdb : dodBits (toInt32 U) =
          natToBits 2 2 ++ natToBits (u64ofInt (toInt32 U)) 7 := by
        unfold dodBits
        rw [if_neg h0, if_pos h1]
      rw [hdb, natToBits_two] at hbits
      have hb2 : it.bits = true :: false ::
          (natToBits (u64ofInt (toInt32 U)) 7 ++
            ((xorBits s.leading s.trailing x).1 ++ rest)) := by
        simpa [List.append_assoc] using hbits
      rw [hnext, nextDod_tag2 it _ hb2]
      unfold Iter.readSz
      rw [readBits_natToBits]
      dsimp only
      rw [stepT_eq]
      have hone : (it.tDelta +
          u32ofInt (toInt32 (signExtend 7 (u64ofInt (toInt32 U) % 2 ^ 7) % 2 ^ 32))) %
            2 ^ 32 = D := by
        rw [sim.htd, payload_roundtrip_7 U hU32 h1.1 h1.2]
        have h2 := sim.htdlt
        omega
      rw [hone, htwo]
    · by_cases h2 : -255 ≤ toInt32 U ∧ toInt32 U ≤ 256
      · have hdb : dodBits (toInt32 U) =
            natToBits 6 3 ++ natToBits (u64ofInt (toInt32 U)) 9 := by
          unfold dodBits
          rw [if_neg h0, if_neg h1, if_pos h2]
        rw [hdb, natToBits_six] at hbits
        have hb2 : it.bits = true :: true :: false ::
            (natToBits (u64ofInt (toInt32 U)) 9 ++
              ((xorBits s.leading s.trailing x).1 ++ rest)) := by
          simpa [List.append_assoc] using hbits
        rw [hnext, nextDod_tag6 it _ hb2]
        unfold Iter.readSz
        rw [readBits_natToBits]
        dsimp only
        rw [stepT_eq]
        have hone : (it.tDelta +
            u32ofInt (toInt32 (signExtend 9 (u64ofInt (toInt32 U) % 2 ^ 9) % 2 ^ 32))) %
              2 ^ 32 = D := by
          rw [sim.htd, payload_roundtrip_9 U hU32 h2.1 h2.2]
          have h3 := sim.htdlt
          omega
        rw [hone, htwo]
      · by_cases h3 : -2047 ≤ toInt32 U ∧ toInt32 U ≤ 2048
        · have hdb : dodBits (toInt32 U) =
              natToBits 14 4 ++ natToBits (u64ofInt (toInt32 U)) 12 := by
            unfold dodBits
            rw [if_neg h0, if_neg h1, if_neg h2, if_pos h3]
          rw [hdb, natToBits_fourteen] at hbits
          have hb2 : it.bits = true :: true :: true :: false ::
              (natToBits (u64ofInt (toInt32 U)) 12 ++
                ((xorBits s.leading s.trailing x).1 ++ rest)) := by
            simpa [List.append_assoc] using hbits
          rw [hnext, nextDod_tag14 it _ hb2]
          unfold Iter.readSz
          rw [readBits_natToBits]
          dsimp only
          rw [stepT_eq]
          have hone : (it.tDelta +
              u32ofInt (toInt32 (signExtend 12 (u64ofInt (toInt32 U) % 2 ^ 12) % 2 ^ 32))) %
                2 ^ 32 = D := by
            rw [sim.htd, payload_roundtrip_12 U hU32 h3.1 h3.2]
            have h4 := sim.htdlt
            omega
          rw [hone, htwo]
        · have hdb : dodBits (toInt32 U) =
              natToBits 15 4 ++ natToBits (u64ofInt (toInt32 U)) 32 := by
            unfold dodBits
            rw [if_neg h0, if_neg h1, if_neg h2, if_neg h3]
          rw [hdb, natToBits_fifteen] at hbits
          have hb2 : it.bits = true :: true :: true :: true ::
              (natToBits (u64ofInt (toInt32 U)) 32 ++
                ((xorBits s.leading s.trailing x).1 ++ rest)) := by
            simpa [List.append_assoc] using hbits
          obtain ⟨hp1, hp2, hp3⟩ := payload_roundtrip_32 U hU32 h3
          rw [hnext, nextDod_tag15 it _ hb2]
          rw [readBits_natToBits, hp1]
          dsimp only
          rw [if_neg hp2, stepT_eq]
          have hone : (it.tDelta + u32ofInt (toInt32 U)) % 2 ^ 32 = D := by
            rw [sim.htd, hp3]
            have h4 := sim.htdlt
            omega
          rw [hone, htwo]

theorem Push_bits_eq (s : Series) (t v : Nat) :
    (s.Push t v).bits = s.bits ++ pushRecBits s t v := by
  by_cases h : s.t = 0
  · rw [Push_first s t v h]
    simp [pushRecBits, h]
  · rw [Push_not_first s t v h]
    simp [pushRecBits, h]

theorem Push_finished (s : Series) (t v : Nat) : (s.Push t v).finished = s.finished := by
  by_cases h : s.t = 0
  · rw [Push_first s t v h]
  · rw [Push_not_first s t v h]

theorem pushAll_bits (S : List (Nat × Nat)) : ∀ s : Series,
    (pushAll s S).bits = s.bits ++ recsBits s S := by
  induction S with
  | nil => intro s; simp [pushAll, recsBits]
  | cons hd tl ih =>
    obtain ⟨t, v⟩ := hd
    intro s
    show (pushAll (s.Push t v) tl).bits = _
    rw [ih (s.Push t v), Push_bits_eq]
    simp [recsBits]

theorem pushAll_finished (S : List (Nat × Nat)) : ∀ s : Series,
    (pushAll s S).finished = s.finished := by
  induction S with
  | nil => intro s; rfl
  | cons hd tl ih =>
    obtain ⟨t, v⟩ := hd
    intro s
    show (pushAll (s.Push t v) tl).finished = _
    rw [ih (s.Push t v), Push_finished]

theorem Finish_bits (s : Series) (h : s.finished = false) :
    s.Finish.bits =
      s.bits ++ natToBits 15 4 ++ natToBits (2 ^ 32 - 1) 32 ++ [false] ++
        List.replicate
          ((8 - (s.bits ++ natToBits 15 4 ++ natToBits (2 ^ 32 - 1) 32 ++ [false]).length % 8)
            % 8) false := by
  unfold Series.Finish
  rw [h]
  simp

theorem Finish_bits_length_mod (s : Series) (h : s.finished = false) :
    s.Finish.bits.length % 8 = 0 := by
  rw [Finish_bits s h]
  simp only [List.length_append, List.length_replicate]
  omega

theorem Bytes_of_aligned (s : Series) (h : s.bits.length % 8 = 0) : s.Bytes = s.bits := by
  unfold Series.Bytes
  have h8 : 8 * (s.bits.length / 8) = s.bits.length := by omega
  rw [h8, List.take_length]

/-! ## Decoder run lemmas -/

theorem decodeRun_succ_true (n : Nat) (it it2 : Iter) (h : it.Next = (true, it2)) :
    decodeRun (n + 1) it = ((it2.t, it2.val) :: (decodeRun n it2).1, (decodeRun n it2).2) := by
  have heq : decodeRun (n + 1) it =
      (match it.Next with
        | (false, it3) => ([], it3)
        | (true, it3) => (it3.Values :: (decodeRun n it3).1, (decodeRun n it3).2)) := rfl
  rw [heq, h]
  rfl

theorem decodeRun_succ_false (n : Nat) (it it2 : Iter) (h : it.Next = (false, it2)) :
    decodeRun (n + 1) it = ([], it2) := by
  have heq : decodeRun (n + 1) it =
      (match it.Next with
        | (false, it3) => ([], it3)
        | (true, it3) => (it3.Values :: (decodeRun n it3).1, (decodeRun n it3).2)) := rfl
  rw [heq, h]

theorem Next_eos (s : Series) (it : Iter) (rest : List Bool)
    (sim : Sim s it) (hst : ¬ s.t = 0)
    (hbits : it.bits = natToBits 15 4 ++ (natToBits (2 ^ 32 - 1) 32 ++ rest)) :
    it.Next = (false, { it with finished := true, bits := rest }) := by
  have hnext : it.Next = it.nextDod := by
    unfold Iter.Next
    rw [sim.herr, sim.hfin, sim.ht]
    simp [hst]
  rw [natToBits_fifteen] at hbits
  simp only [List.cons_append, List.nil_append] at hbits
  rw [hnext, nextDod_tag15 it _ hbits]
  rw [readBits_natToBits]
  rw [Nat.mod_eq_of_lt (by omega : 2 ^ 32 - 1 < 2 ^ 32)]
  dsimp only
  rw [if_pos rfl]

theorem Next_first_record (s : Series) (it : Iter) (t v : Nat) (rest : List Bool)
    (hst : s.t = 0) (hitt : it.t = 0) (hit0 : it.t0 = s.t0)
    (herr : it.err = false) (hfin : it.finished = false)
    (hsl : s.leading = 2 ^ 64 - 1) (ht0lt : s.t0 < 2 ^ 32)
    (ht32 : t < 2 ^ 32) (hv : v < 2 ^ 64)
    (hD14 : (t + 2 ^ 32 - s.t0) % 2 ^ 32 < 2 ^ 14)
    (hbits : it.bits =
      natToBits ((t + 2 ^ 32 - s.t0) % 2 ^ 32) 14 ++ (natToBits v 64 ++ rest)) :
    ∃ it2 : Iter, it.Next = (true, it2) ∧ it2.bits = rest ∧
      it2.t = t ∧ it2.val = v ∧ Sim (s.Push t v) it2 := by
  have hPush := Push_first s t v hst
  rw [Nat.mod_eq_of_lt ht32, Nat.mod_eq_of_lt hv] at hPush
  have hD32 : (t + 2 ^ 32 - s.t0) % 2 ^ 32 < 2 ^ 32 := Nat.mod_lt _ (by omega)
  have hnext : it.Next = it.nextFirst := by
    unfold Iter.Next
    rw [herr, hfin, hitt]
    simp
  have htt : (it.t0 + (t + 2 ^ 32 - s.t0) % 2 ^ 32) % 2 ^ 32 = t := by
    rw [hit0]
    omega
  refine ⟨{ it with
      tDelta := (t + 2 ^ 32 - s.t0) % 2 ^ 32, t := t, val := v, bits := rest },
    ?_, rfl, rfl, rfl, ?_⟩
  · rw [hnext]
    unfold Iter.nextFirst
    rw [hbits, readBits_natToBits, Nat.mod_eq_of_lt hD14]
    dsimp only
    rw [readBits_natToBits, Nat.mod_eq_of_lt hv]
    dsimp only
    rw [htt]
  · refine
      { ht0 := ?_, htd := ?_, ht := ?_, hval := ?_, hwin := ?_,
        herr := ?_, hfin := ?_, htlt := ?_, htdlt := ?_, hvlt := ?_ }
    · rw [hPush]
      exact hit0
    · rw [hPush]
    · rw [hPush]
    · rw [hPush]
    · rw [hPush]
      exact Or.inl hsl
    · exact herr
    · exact hfin
    · rw [hPush]
      exact ht32
    · rw [hPush]
      exact hD32
    · rw [hPush]
      exact hv

theorem okXorB_eq_true (x : Nat) :
    okXorB x = true ↔ (x = 0 ∨ (clz64 x < 32 ∧ 1 ≤ clz64 x + ctz64 x)) := by
  simp [okXorB, Bool.or_eq_true, Bool.and_eq_true, decide_eq_true_eq, beq_iff_eq]

theorem validFromB_cons (prev t v : Nat) (rest : List (Nat × Nat)) :
    validFromB prev ((t, v) :: rest) = true ↔
      (t ≠ 0 ∧ t < 2 ^ 32 ∧ v < 2 ^ 64 ∧ okXorB (Nat.xor v prev) = true ∧
        validFromB v rest = true) := by
  simp only [validFromB, Bool.and_eq_true, decide_eq_true_eq]
  tauto

theorem decodeRun_records (S : List (Nat × Nat)) :
    ∀ (s : Series) (it : Iter) (rest : List Bool) (f : Nat),
      Sim s it → ¬ s.t = 0 → validFromB s.val S = true →
      it.bits = recsBits s S ++ rest →
      ∃ itF : Iter, Sim (pushAll s S) itF ∧ ¬ (pushAll s S).t = 0 ∧ itF.bits = rest ∧
        decodeRun (S.length + f) it = (S ++ (decodeRun f itF).1, (decodeRun f itF).2) := by
  induction S with
  | nil =>
    intro s it rest f sim hst _ hb
    refine ⟨it, sim, hst, by simpa [recsBits] using hb, by simp⟩
  | cons hd tl ih =>
    obtain ⟨t, v⟩ := hd
    intro s it rest f sim hst hval hb
    rw [validFromB_cons] at hval
    obtain ⟨htnz, ht32, hv64, hok, hvtl⟩ := hval
    have hokx := (okXorB_eq_true _).mp hok
    -- shape the bits for Next_record
    have hrb : it.bits =
        dodBits (toInt32 (((t + 2 ^ 32 - s.t) % 2 ^ 32 + 2 ^ 32 - s.tDelta) % 2 ^ 32)) ++
          ((xorBits s.leading s.trailing (Nat.xor v s.val)).1 ++
            (recsBits (s.Push t v) tl ++ rest)) := by
      rw [hb]
      show (recsBits s ((t, v) :: tl)) ++ rest = _
      rw [recsBits]
      unfold pushRecBits
      rw [if_neg hst, Nat.mod_eq_of_lt ht32, Nat.mod_eq_of_lt hv64]
      simp [List.append_assoc]
    obtain ⟨it2, hN, hb2, ht2, hv2, sim2⟩ :=
      Next_record s it t v (recsBits (s.Push t v) tl ++ rest) sim hst ht32 hv64 hokx hrb
    have hst2 : ¬ (s.Push t v).t = 0 := by
      rw [Push_not_first s t v hst]
      show ¬ t % 2 ^ 32 = 0
      rw [Nat.mod_eq_of_lt ht32]
      exact htnz
    have hvtl2 : validFromB (s.Push t v).val tl = true := by
      rw [Push_not_first s t v hst]
      show validFromB (v % 2 ^ 64) tl = true
      rw [Nat.mod_eq_of_lt hv64]
      exact hvtl
    obtain ⟨itF, simF, hstF, hbF, hrun⟩ := ih (s.Push t v) it2 rest f sim2 hst2 hvtl2 hb2
    refine ⟨itF, ?_, ?_, hbF, ?_⟩
    · show Sim (pushAll (s.Push t v) tl) itF
      exact simF
    · show ¬ (pushAll (s.Push t v) tl).t = 0
      exact hstF
    · have hlen : ((t, v) :: tl).length + f = (tl.length + f) + 1 := by
        simp [List.length_cons]
        omega
      rw [hlen, decodeRun_succ_true (tl.length + f) it it2 hN, ht2, hv2, hrun]
      simp

theorem validSeqB_cons (a t1 v1 : Nat) (rest : List (Nat × Nat)) :
    validSeqB a ((t1, v1) :: rest) = true ↔
      (t1 ≠ 0 ∧ t1 < 2 ^ 32 ∧ v1 < 2 ^ 64 ∧
        (t1 + 2 ^ 32 - a % 2 ^ 32) % 2 ^ 32 < 2 ^ 14 ∧ validFromB v1 rest = true) := by
  simp only [validSeqB, Bool.and_eq_true, decide_eq_true_eq]
  tauto

theorem NewIterator_append (v : Nat) (hv : v < 2 ^ 32) (rest : List Bool) :
    NewIterator (natToBits v 32 ++ rest) =
      some { t0 := v, tDelta := 0, t := 0, val := 0, leading := 0, trailing := 0,
             bits := rest, finished := false, err := false } := by
  unfold NewIterator
  rw [readBits_natToBits, Nat.mod_eq_of_lt hv]

/-- C1, amended: the round trip holds under the preconditions the code's
defects force: the sequence is nonempty, every timestamp is a nonzero
`uint32` (the `t == 0` sentinel, src/tsz.go:69 and :176), the first sample's
delta from the anchor fits the 14-bit field, and every consecutive value XOR
is either zero or has fewer than 32 leading zeros (the unclamped 5-bit
`leading` write) and at least one leading or trailing zero (so the 6-bit
`sigbits` field is not 64, which aliases to 0).  Then decoding the finished
bytes yields exactly the pushed samples, with no latched error and the
end-of-stream marker recognized. -/
theorem roundtrip (a : Nat) (S : List (Nat × Nat)) (h : validSeqB a S = true) :
    decodeBlock (encode a S).Bytes (S.length + 1) = (S, false, true) := by
  match S with
  | [] => simp [validSeqB] at h
  | (t1, v1) :: tl =>
    rw [validSeqB_cons] at h
    obtain ⟨ht1nz, ht1lt, hv1lt, hD14, hvtl⟩ := h
    have hPfin : (pushAll (New a) ((t1, v1) :: tl)).finished = false := by
      rw [pushAll_finished]
      rfl
    have hBytes : (encode a ((t1, v1) :: tl)).Bytes = (encode a ((t1, v1) :: tl)).bits :=
      Bytes_of_aligned _ (Finish_bits_length_mod _ hPfin)
    have ha32 : a % 2 ^ 32 < 2 ^ 32 := Nat.mod_lt _ (by omega)
    obtain ⟨padN, hstream⟩ : ∃ n : Nat, (encode a ((t1, v1) :: tl)).bits =
        natToBits (a % 2 ^ 32) 32 ++ (recsBits (New a) ((t1, v1) :: tl) ++
          (natToBits 15 4 ++ (natToBits (2 ^ 32 - 1) 32 ++
            ([false] ++ List.replicate n false)))) := by
      refine ⟨(8 - ((pushAll (New a) ((t1, v1) :: tl)).bits ++ natToBits 15 4 ++
        natToBits (2 ^ 32 - 1) 32 ++ [false]).length % 8) % 8, ?_⟩
      show (pushAll (New a) ((t1, v1) :: tl)).Finish.bits = _
      rw [Finish_bits _ hPfin, pushAll_bits]
      show natToBits (a % 2 ^ 32) 32 ++ recsBits (New a) ((t1, v1) :: tl) ++
        natToBits 15 4 ++ natToBits (2 ^ 32 - 1) 32 ++ [false] ++ _ = _
      simp only [List.append_assoc]
    set eosRest : List Bool :=
      natToBits 15 4 ++ (natToBits (2 ^ 32 - 1) 32 ++
        ([false] ++ List.replicate padN false)) with heos
    have hNI : NewIterator (encode a ((t1, v1) :: tl)).bits =
        some { t0 := a % 2 ^ 32, tDelta := 0, t := 0, val := 0, leading := 0,
               trailing := 0,
               bits := recsBits (New a) ((t1, v1) :: tl) ++ eosRest,
               finished := false, err := false } := by
      rw [hstream]
      exact NewIterator_append _ ha32 _
    have hrecs : recsBits (New a) ((t1, v1) :: tl) =
        (natToBits ((t1 + 2 ^ 32 - a % 2 ^ 32) % 2 ^ 32) 14 ++ natToBits v1 64) ++
          recsBits ((New a).Push t1 v1) tl := by
      rw [recsBits]
      congr 1
      unfold pushRecBits
      rw [if_pos (show (New a).t = 0 from rfl)]
      rw [Nat.mod_eq_of_lt ht1lt, Nat.mod_eq_of_lt hv1lt]
      rfl
    have hbits0 :
        ({ t0 := a % 2 ^ 32, tDelta := 0, t := 0, val := 0, leading := 0,
           trailing := 0,
           bits := recsBits (New a) ((t1, v1) :: tl) ++ eosRest,
           finished := false, err := false } : Iter).bits =
        natToBits ((t1 + 2 ^ 32 - a % 2 ^ 32) % 2 ^ 32) 14 ++
          (natToBits v1 64 ++ (recsBits ((New a).Push t1 v1) tl ++ eosRest)) := by
      show recsBits (New a) ((t1, v1) :: tl) ++ eosRest = _
      rw [hrecs]
      simp only [List.append_assoc]
    obtain ⟨it1, hN1, hb1, ht1e, hv1e, sim1⟩ :=
      Next_first_record (New a)
        { t0 := a % 2 ^ 32, tDelta := 0, t := 0, val := 0, leading := 0, trailing := 0,
          bits := recsBits (New a) ((t1, v1) :: tl) ++ eosRest,
          finished := false, err := false }
        t1 v1 (recsBits ((New a).Push t1 v1) tl ++ eosRest) rfl rfl rfl rfl rfl rfl
        ha32 ht1lt hv1lt hD14 hbits0
    have hs1t : ¬ ((New a).Push t1 v1).t = 0 := by
      rw [Push_first _ _ _ rfl]
      show ¬ t1 % 2 ^ 32 = 0
      rw [Nat.mod_eq_of_lt ht1lt]
      exact ht1nz
    have hvs1 : validFromB ((New a).Push t1 v1).val tl = true := by
      rw [Push_first _ _ _ rfl]
      show validFromB (v1 % 2 ^ 64) tl = true
      rw [Nat.mod_eq_of_lt hv1lt]
      exact hvtl
    obtain ⟨itF, simF, hstF, hbF, hrun⟩ :=
      decodeRun_records tl ((New a).Push t1 v1) it1 eosRest 1 sim1 hs1t hvs1 hb1
    have hNe := Next_eos (pushAll ((New a).Push t1 v1) tl) itF
      ([false] ++ List.replicate padN false) simF hstF (by rw [hbF, heos])
    have hdr1 : decodeRun 1 itF =
        ([], { itF with
          finished := true,
          bits := [false] ++ List.replicate padN false }) :=
      decodeRun_succ_false 0 itF _ hNe
    rw [hBytes]
    unfold decodeBlock
    rw [hNI]
    dsimp only
    have hlen : ((t1, v1) :: tl).length + 1 = (tl.length + 1) + 1 := by simp
    rw [hlen]
    rw [decodeRun_succ_true (tl.length + 1) _ it1 hN1, ht1e, hv1e, hrun, hdr1]
    simp [simF.herr]

/-- Witness for `roundtrip` at a concrete two-sample sequence whose second
value flips the sign bit (XOR `2^63`, 0 leading zeros). -/
theorem roundtrip_witness :
    validSeqB 0 [(60, 0), (120, 2 ^ 63)] = true ∧
      decodeBlock (encode 0 [(60, 0), (120, 2 ^ 63)]).Bytes 3 =
        ([(60, 0), (120, 2 ^ 63)], false, true) :=
  ⟨by decide, roundtrip 0 [(60, 0), (120, 2 ^ 63)] (by decide)⟩

